import Mathlib

/-!
# A shallow embedding of the `rope-structure` text rope

This file embeds the rope data structure from `src/index.ts` (class `Rope`
over `RopeNode`) and proves the frozen specification claims about it.

Modelling conventions:
* JS strings are modelled as `List Char` (`Str`); indexing is per code unit.
* The mutable tree is modelled functionally: a `RopeNode` is either a leaf
  carrying its string fragment, or an internal node carrying its two children
  and its cached `weight` and `height` fields.  Leaf nodes in the source keep
  `weight = value.length` and `height = 1` at all times (set by the
  constructor, `updateNodeMetadata`, and the leaf-merge path of `concat`), so
  the leaf caches are not stored separately.
* `null` children / the nullable root are `Option RopeNode`; the TypeScript
  non-null assertions (`!`) that can actually fail at runtime are modelled as
  an `Err.invalidStructure` result.
* Thrown JS errors become `Except Err` results: `Error("Index out of bounds")`
  is `Err.indexOutOfBounds`, `Error("Invalid range")` is `Err.invalidRange`,
  `Error("Invalid rope structure")` is `Err.invalidStructure`.
* Public indices are `Int` (JS numbers restricted to integers, as the claims
  do); after the source's bounds validation they are converted to `Nat` for
  the internal recursions, which only ever see in-range values.
-/

namespace RopeModel

/-- JS strings, one entry per atomic indexing unit. -/
abbrev Str := List Char

/-- Errors thrown by the source (`throw new Error(...)`). -/
inductive Err where
  | indexOutOfBounds
  | invalidRange
  | invalidStructure
deriving DecidableEq, Repr

/-- `RopeNode` from the source: a leaf holds a string fragment (`value`);
an internal node holds two children plus the cached `weight` and `height`
fields.  The source never creates an internal node with a missing child
(spec §3: "internal nodes always end up with two real children"), so internal
children are not optional here. -/
inductive RopeNode where
  | leaf (value : Str)
  | internal (left right : RopeNode) (weight height : Nat)
deriving DecidableEq, Repr

/-- `LEAF_LENGTH_THRESHOLD` from the source. -/
def LEAF_LENGTH_THRESHOLD : Nat := 1024

/-- `getNodeWeight(node)`: total length of the string in a node's subtree,
computed by summing leaf lengths (the source ignores the cached weights
here). -/
def getNodeWeight : RopeNode → Nat
  | .leaf v => v.length
  | .internal l r _ _ => getNodeWeight l + getNodeWeight r

/-- The cached `height` field of a node (a leaf's is always 1). -/
def cachedHeight : RopeNode → Nat
  | .leaf _ => 1
  | .internal _ _ _ h => h

/-- Building an internal node followed by `updateNodeMetadata(node)`:
`weight` is `getNodeWeight(node.left)` and `height` is
`max(leftHeight, rightHeight) + 1` from the children's cached heights. -/
def mkInternal (l r : RopeNode) : RopeNode :=
  .internal l r (getNodeWeight l) (max (cachedHeight l) (cachedHeight r) + 1)

/-- `getBalanceFactor(node)`: cached left height minus cached right height
(0 for a leaf, whose children are null). -/
def getBalanceFactor : RopeNode → Int
  | .leaf _ => 0
  | .internal l r _ _ => (cachedHeight l : Int) - (cachedHeight r : Int)

/-- `rotateRight(y)`: `x = y.left`, `T2 = x.right`; then `x.right = y`,
`y.left = T2`, and metadata is recomputed on `y` then `x`.  The source
asserts `y.left` non-null; it is only called by `balance` when the left
cached height is at least 2, so the fallback branch (pivot's left child a
leaf, or pivot a leaf) is unreachable from the public operations and returns
the node unchanged. -/
def rotateRight : RopeNode → RopeNode
  | .internal (.internal a t2 _ _) r _ _ => mkInternal a (mkInternal t2 r)
  | n => n

/-- `rotateLeft(x)`: `y = x.right`, `T2 = y.left`; then `y.left = x`,
`x.right = T2`, and metadata is recomputed on `x` then `y`.  Fallback branch
as in `rotateRight`. -/
def rotateLeft : RopeNode → RopeNode
  | .internal l (.internal t2 b _ _) _ _ => mkInternal (mkInternal l t2) b
  | n => n

/-- `balance(node)`: recompute metadata, then rotate according to the cached
balance factor (single or double rotation).  For a leaf the balance factor is
0 and the node is returned unchanged. -/
def balance : RopeNode → RopeNode
  | .leaf v => .leaf v
  | .internal l r _ _ =>
    let bf := (cachedHeight l : Int) - (cachedHeight r : Int)
    if 1 < bf then
      if 0 ≤ getBalanceFactor l then
        rotateRight (mkInternal l r)
      else
        rotateRight (mkInternal (rotateLeft l) r)
    else if bf < -1 then
      if getBalanceFactor r ≤ 0 then
        rotateLeft (mkInternal l r)
      else
        rotateLeft (mkInternal l (rotateRight r))
    else
      mkInternal l r

/-- `concat(left, right)` on two non-null nodes: merge two small leaves in
place, otherwise build an internal node, update its metadata and balance
it. -/
def concatNodes : RopeNode → RopeNode → RopeNode
  | .leaf v, .leaf w =>
    if v.length + w.length ≤ LEAF_LENGTH_THRESHOLD then .leaf (v ++ w)
    else balance (mkInternal (.leaf v) (.leaf w))
  | .leaf v, .internal bl br bw bh =>
    balance (mkInternal (.leaf v) (.internal bl br bw bh))
  | .internal al ar aw ah, b =>
    balance (mkInternal (.internal al ar aw ah) b)

/-- `concat(left, right)` including its null guards: `if (!left) return
right; if (!right) return left;`. -/
def concatOpt : Option RopeNode → Option RopeNode → Option RopeNode
  | none, b => b
  | some x, none => some x
  | some x, some y => some (concatNodes x y)

/-- `split(node, index)`: partition the subtree at a character offset.
At an internal node, the remainder is reunited with the untouched sibling
through `concat` (`r ? concat(r, node.right) : node.right`, and symmetrically
for the left side), which is exactly `concatOpt`. -/
def splitNode : RopeNode → Nat → Option RopeNode × Option RopeNode
  | .leaf v, i =>
    if i = 0 then (none, some (.leaf v))
    else if i = v.length then (some (.leaf v), none)
    else (some (.leaf (v.take i)), some (.leaf (v.drop i)))
  | .internal l r w _, i =>
    if i < w then
      let p := splitNode l i
      (p.1, concatOpt p.2 (some r))
    else
      let p := splitNode r (i - w)
      (concatOpt (some l) p.1, p.2)

/-- `toString(node)` on a non-null node: in-order concatenation of the leaf
fragments. -/
def toStrN : RopeNode → Str
  | .leaf v => v
  | .internal l r _ _ => toStrN l ++ toStrN r

/-- `toString(node)` including the null case. -/
def toStrOpt : Option RopeNode → Str
  | none => []
  | some n => toStrN n

/-- `createOptimalTree(str, start, end)`, written on the slice it denotes:
fragments of length at most the leaf threshold become leaves, longer ones are
bisected at `mid = floor((start + end) / 2)`, i.e. at `length / 2` of the
slice.  The structural fuel argument bounds the slice length, making the
recursion structural (the slice strictly shrinks while it exceeds the
threshold). -/
def cotFuel : Nat → Str → RopeNode
  | 0, s => .leaf s
  | fuel + 1, s =>
    if s.length ≤ LEAF_LENGTH_THRESHOLD then .leaf s
    else
      mkInternal (cotFuel fuel (s.take (s.length / 2)))
        (cotFuel fuel (s.drop (s.length / 2)))

/-- `createOptimalTree(str)` with full fuel. -/
def createOptimalTree (s : Str) : RopeNode :=
  cotFuel s.length s

/-- The `Rope` class state: its nullable `root`. -/
structure Rope where
  root : Option RopeNode
deriving DecidableEq, Repr

/-- `new Rope(initialString)`: a truthy (non-empty) string is built into an
optimal tree, an empty string leaves the root null. -/
def Rope.ofString (s : Str) : Rope :=
  ⟨if s.isEmpty then none else some (createOptimalTree s)⟩

/-- `length()`: `this.root ? this.getNodeWeight(this.root) : 0`. -/
def Rope.lengthN (r : Rope) : Nat :=
  match r.root with
  | none => 0
  | some n => getNodeWeight n

/-- `toString()` at the default argument (the root). -/
def Rope.toStr (r : Rope) : Str :=
  toStrOpt r.root

/-- `insert(index, text)`: validate, then split at the index, build a fresh
leaf for the text, and reassemble with `concat`. -/
def Rope.insert (r : Rope) (index : Int) (text : Str) : Except Err Rope :=
  if index < 0 ∨ (r.lengthN : Int) < index then .error .indexOutOfBounds
  else
    match r.root with
    | none => .ok ⟨some (.leaf text)⟩
    | some root =>
      let newNode : RopeNode := .leaf text
      let p := splitNode root index.toNat
      match p.1 with
      | some l => .ok ⟨concatOpt (concatOpt (some l) (some newNode)) p.2⟩
      | none => .ok ⟨concatOpt (some newNode) p.2⟩

/-- `delete(start, end)`: the `start === end` fast path returns before any
validation; otherwise validate, split twice and drop the middle part.  The
source's `this.root!` and `temp!` assertions fail only on states the
validation excludes; they are modelled as `invalidStructure`. -/
def Rope.delete (r : Rope) (start stop : Int) : Except Err Rope :=
  if start = stop then .ok r
  else if start < 0 ∨ (r.lengthN : Int) < stop ∨ stop ≤ start then
    .error .invalidRange
  else
    match r.root with
    | none => .error .invalidStructure
    | some root =>
      let p := splitNode root start.toNat
      match p.2 with
      | none => .error .invalidStructure
      | some t =>
        let q := splitNode t (stop - start).toNat
        match p.1 with
        | some l => .ok ⟨concatOpt (some l) q.2⟩
        | none => .ok ⟨q.2⟩

/-- The descent loop of `charAt`: at an internal node go left when the index
is below the cached weight, else subtract the weight and go right; at the
leaf, a missing character (JS `undefined`) becomes an error. -/
def charAtAux : RopeNode → Nat → Except Err Char
  | .leaf v, i =>
    match v[i]? with
    | some c => .ok c
    | none => .error .indexOutOfBounds
  | .internal l r w _, i =>
    if i < w then charAtAux l i else charAtAux r (i - w)

/-- `charAt(index)`: `if (!this.root || index < 0 || index >= this.length())`
throws IndexOutOfBounds, then the descent loop runs. -/
def Rope.charAt (r : Rope) (index : Int) : Except Err Char :=
  match r.root with
  | none => .error .indexOutOfBounds
  | some root =>
    if index < 0 ∨ (r.lengthN : Int) ≤ index then .error .indexOutOfBounds
    else charAtAux root index.toNat

/-- `substring(start, end)`: validate, handle the empty and full ranges,
otherwise split twice, read the middle, and reassemble all three parts (the
call may restructure the tree).  Returns the extracted string together with
the new rope state. -/
def Rope.substring (r : Rope) (start stop : Int) : Except Err (Str × Rope) :=
  if start < 0 ∨ (r.lengthN : Int) < stop ∨ stop < start then
    .error .invalidRange
  else if start = stop then .ok ([], r)
  else if start = 0 ∧ stop = (r.lengthN : Int) then .ok (r.toStr, r)
  else
    match r.root with
    | none => .error .invalidStructure
    | some root =>
      let p := splitNode root start.toNat
      match p.2 with
      | none => .error .invalidStructure
      | some t =>
        let q := splitNode t (stop - start).toNat
        let result := toStrOpt q.1
        let firstPart := concatOpt p.1 q.1
        .ok (result, ⟨concatOpt firstPart q.2⟩)

/-- The inner `checkBalance` helper of `isBalanced()` on a non-null node:
post-order height computation that short-circuits with the `-1` sentinel when
two real child heights differ by more than 1.  A leaf's children are null
(height 0 each), so a leaf yields 1. -/
def checkBalanceN : RopeNode → Int
  | .leaf _ => 1
  | .internal l r _ _ =>
    let lh := checkBalanceN l
    if lh = -1 then -1
    else
      let rh := checkBalanceN r
      if rh = -1 then -1
      else if 1 < (lh - rh).natAbs then -1
      else max lh rh + 1

/-- `checkBalance` including the null case. -/
def checkBalance : Option RopeNode → Int
  | none => 0
  | some n => checkBalanceN n

/-- `isBalanced()`: `checkBalance(this.root) !== -1`. -/
def Rope.isBalanced (r : Rope) : Bool :=
  checkBalance r.root != -1

/-- `rebalance()`: materialize the string and rebuild the tree from it. -/
def Rope.rebalance (r : Rope) : Rope :=
  ⟨some (createOptimalTree r.toStr)⟩

/-! ## Derived notions used by the claims -/

/-- Real (uncached) height of a node. -/
def realHeight : RopeNode → Nat
  | .leaf _ => 1
  | .internal l r _ _ => max (realHeight l) (realHeight r) + 1

/-- Claim C2's invariant: every internal node has real balance factor
`height(left) - height(right)` in `{-1, 0, 1}`. -/
def avlOk : RopeNode → Bool
  | .leaf _ => true
  | .internal l r _ _ =>
    avlOk l && avlOk r &&
      ((realHeight l : Int) - (realHeight r : Int)).natAbs ≤ 1

/-- `avlOk` lifted to a rope state. -/
def avlRope (r : Rope) : Bool :=
  match r.root with
  | none => true
  | some n => avlOk n

/-- Claim C7's invariant: every internal node's cached `weight` equals the
sum of the lengths of all leaf values in its left subtree. -/
def wfW : RopeNode → Bool
  | .leaf _ => true
  | .internal l r w _ => (w == getNodeWeight l) && wfW l && wfW r

/-- `wfW` lifted to a nullable node. -/
def wfOpt : Option RopeNode → Bool
  | none => true
  | some n => wfW n

/-- `wfW` lifted to a rope state. -/
def wfRope (r : Rope) : Bool :=
  wfOpt r.root

/-! ## Basic structural lemmas -/

theorem toStrN_mkInternal (l r : RopeNode) :
    toStrN (mkInternal l r) = toStrN l ++ toStrN r := rfl

theorem getNodeWeight_eq (n : RopeNode) :
    getNodeWeight n = (toStrN n).length := by
  induction n with
  | leaf v => rfl
  | internal l r w h ihl ihr =>
    simp [getNodeWeight, toStrN, ihl, ihr]

theorem toStrN_rotateRight (n : RopeNode) :
    toStrN (rotateRight n) = toStrN n := by
  match n with
  | .leaf v => rfl
  | .internal (.leaf v) r w h => rfl
  | .internal (.internal a t2 w2 h2) r w h =>
    simp [rotateRight, toStrN_mkInternal, toStrN, List.append_assoc]

theorem toStrN_rotateLeft (n : RopeNode) :
    toStrN (rotateLeft n) = toStrN n := by
  match n with
  | .leaf v => rfl
  | .internal l (.leaf v) w h => rfl
  | .internal l (.internal t2 b w2 h2) w h =>
    simp [rotateLeft, toStrN_mkInternal, toStrN, List.append_assoc]

theorem toStrN_balance (n : RopeNode) :
    toStrN (balance n) = toStrN n := by
  match n with
  | .leaf v => rfl
  | .internal l r w h =>
    simp only [balance]
    split
    · split
      · rw [toStrN_rotateRight, toStrN_mkInternal]; simp [toStrN]
      · rw [toStrN_rotateRight, toStrN_mkInternal, toStrN_rotateLeft]; simp [toStrN]
    · split
      · split
        · rw [toStrN_rotateLeft, toStrN_mkInternal]; simp [toStrN]
        · rw [toStrN_rotateLeft, toStrN_mkInternal, toStrN_rotateRight]; simp [toStrN]
      · rfl

theorem toStrN_concatNodes (a b : RopeNode) :
    toStrN (concatNodes a b) = toStrN a ++ toStrN b := by
  match a, b with
  | .leaf v, .leaf w =>
    simp only [concatNodes]
    split
    · rfl
    · rw [toStrN_balance, toStrN_mkInternal]
  | .leaf v, .internal bl br bw bh =>
    rw [concatNodes, toStrN_balance, toStrN_mkInternal]
  | .internal al ar aw ah, bb =>
    rw [concatNodes, toStrN_balance, toStrN_mkInternal]

theorem toStrOpt_concatOpt (a b : Option RopeNode) :
    toStrOpt (concatOpt a b) = toStrOpt a ++ toStrOpt b := by
  match a, b with
  | none, b => simp [concatOpt, toStrOpt]
  | some x, none => simp [concatOpt, toStrOpt]
  | some x, some y => simpa [concatOpt, toStrOpt] using toStrN_concatNodes x y

theorem toStrOpt_eq_nil_of_none {a : Option RopeNode} (h : a = none) :
    toStrOpt a = [] := by
  subst h; rfl

/-! ## Preservation of the weight invariant -/

theorem wfW_mkInternal {l r : RopeNode} (hl : wfW l = true) (hr : wfW r = true) :
    wfW (mkInternal l r) = true := by
  simp [mkInternal, wfW, hl, hr]

theorem wfW_internal_iff {l r : RopeNode} {w h : Nat} :
    wfW (.internal l r w h) = true ↔
      w = getNodeWeight l ∧ wfW l = true ∧ wfW r = true := by
  simp [wfW, Bool.and_eq_true, beq_iff_eq, and_assoc]

theorem wfW_rotateRight {n : RopeNode} (h : wfW n = true) :
    wfW (rotateRight n) = true := by
  match n with
  | .leaf v => exact h
  | .internal (.leaf v) r w hh => exact h
  | .internal (.internal a t2 w2 h2) r w hh =>
    rw [wfW_internal_iff] at h
    rw [wfW_internal_iff] at h
    exact wfW_mkInternal h.2.1.2.1 (wfW_mkInternal h.2.1.2.2 h.2.2)

theorem wfW_rotateLeft {n : RopeNode} (h : wfW n = true) :
    wfW (rotateLeft n) = true := by
  match n with
  | .leaf v => exact h
  | .internal l (.leaf v) w hh => exact h
  | .internal l (.internal t2 b w2 h2) w hh =>
    rw [wfW_internal_iff] at h
    rw [wfW_internal_iff] at h
    exact wfW_mkInternal (wfW_mkInternal h.2.1 h.2.2.2.1) h.2.2.2.2

theorem wfW_balance {n : RopeNode} (h : wfW n = true) :
    wfW (balance n) = true := by
  match n with
  | .leaf v => exact h
  | .internal l r w hh =>
    rw [wfW_internal_iff] at h
    simp only [balance]
    split
    · split
      · exact wfW_rotateRight (wfW_mkInternal h.2.1 h.2.2)
      · exact wfW_rotateRight (wfW_mkInternal (wfW_rotateLeft h.2.1) h.2.2)
    · split
      · split
        · exact wfW_rotateLeft (wfW_mkInternal h.2.1 h.2.2)
        · exact wfW_rotateLeft (wfW_mkInternal h.2.1 (wfW_rotateRight h.2.2))
      · exact wfW_mkInternal h.2.1 h.2.2

theorem wfW_concatNodes {a b : RopeNode}
    (ha : wfW a = true) (hb : wfW b = true) :
    wfW (concatNodes a b) = true := by
  match a, b with
  | .leaf v, .leaf w =>
    simp only [concatNodes]
    split
    · rfl
    · exact wfW_balance (wfW_mkInternal rfl rfl)
  | .leaf v, .internal bl br bw bh =>
    exact wfW_balance (wfW_mkInternal ha hb)
  | .internal al ar aw ah, b =>
    exact wfW_balance (wfW_mkInternal ha hb)

theorem wfOpt_concatOpt {a b : Option RopeNode}
    (ha : wfOpt a = true) (hb : wfOpt b = true) :
    wfOpt (concatOpt a b) = true := by
  match a, b with
  | none, b => exact hb
  | some x, none => exact ha
  | some x, some y => exact wfW_concatNodes ha hb

theorem wfOpt_splitNode {n : RopeNode} (h : wfW n = true) (i : Nat) :
    wfOpt (splitNode n i).1 = true ∧ wfOpt (splitNode n i).2 = true := by
  induction n generalizing i with
  | leaf v =>
    simp only [splitNode]
    split
    · exact ⟨rfl, rfl⟩
    · split
      · exact ⟨rfl, rfl⟩
      · exact ⟨rfl, rfl⟩
  | internal l r w hh ihl ihr =>
    rw [wfW_internal_iff] at h
    simp only [splitNode]
    split
    · refine ⟨(ihl h.2.1 i).1, wfOpt_concatOpt (ihl h.2.1 i).2 h.2.2⟩
    · refine ⟨wfOpt_concatOpt h.2.1 (ihr h.2.2 (i - w)).1, (ihr h.2.2 (i - w)).2⟩

/-! ## Split correctness -/

theorem splitNode_toStr {n : RopeNode} (h : wfW n = true) (i : Nat) :
    toStrOpt (splitNode n i).1 = (toStrN n).take i ∧
      toStrOpt (splitNode n i).2 = (toStrN n).drop i := by
  induction n generalizing i with
  | leaf v =>
    simp only [splitNode, toStrN]
    split
    · subst ‹i = 0›
      simp [toStrOpt, toStrN]
    · split
      · subst ‹i = v.length›
        simp [toStrOpt, toStrN]
      · simp [toStrOpt, toStrN]
  | internal l r w hh ihl ihr =>
    rw [wfW_internal_iff] at h
    obtain ⟨hw, hl, hr⟩ := h
    have hwlen : w = (toStrN l).length := by rw [hw, getNodeWeight_eq]
    simp only [splitNode, toStrN]
    split
    · rename_i hi
      have hile : i ≤ (toStrN l).length := by omega
      constructor
      · rw [(ihl hl i).1, List.take_append_of_le_length hile]
      · rw [toStrOpt_concatOpt, (ihl hl i).2,
          List.drop_append_of_le_length hile]
        rfl
    · rename_i hi
      have hge : (toStrN l).length ≤ i := by omega
      constructor
      · rw [toStrOpt_concatOpt, (ihr hr (i - w)).1, hwlen,
          List.take_append_eq_append_take, List.take_of_length_le hge]
        rfl
      · rw [(ihr hr (i - w)).2, hwlen, List.drop_append_eq_append_drop,
          List.drop_of_length_le hge]
        simp

/-! ## The tree builder -/

theorem toStrN_cotFuel {f : Nat} {s : Str} (h : s.length ≤ f) :
    toStrN (cotFuel f s) = s := by
  induction f generalizing s with
  | zero => rfl
  | succ f ih =>
    simp only [cotFuel]
    split
    · rfl
    · rename_i hlen
      have hthr : 1024 < s.length := by
        simpa [LEAF_LENGTH_THRESHOLD] using hlen
      rw [toStrN_mkInternal,
        ih (by simp only [List.length_take]; omega),
        ih (by simp only [List.length_drop]; omega),
        List.take_append_drop]

theorem wfW_cotFuel (f : Nat) (s : Str) : wfW (cotFuel f s) = true := by
  induction f generalizing s with
  | zero => rfl
  | succ f ih =>
    simp only [cotFuel]
    split
    · rfl
    · exact wfW_mkInternal (ih _) (ih _)

theorem toStrN_createOptimalTree (s : Str) :
    toStrN (createOptimalTree s) = s :=
  toStrN_cotFuel le_rfl

theorem wfW_createOptimalTree (s : Str) :
    wfW (createOptimalTree s) = true :=
  wfW_cotFuel _ _

/-! ## Rope-level basics -/

theorem Rope.toStr_ofString (s : Str) : (Rope.ofString s).toStr = s := by
  by_cases hs : s.isEmpty
  · have : s = [] := List.isEmpty_iff.mp hs
    subst this
    simp [Rope.ofString, Rope.toStr, toStrOpt]
  · simp [Rope.ofString, hs, Rope.toStr, toStrOpt, toStrN_createOptimalTree]

theorem wfRope_ofString (s : Str) : wfRope (Rope.ofString s) = true := by
  by_cases hs : s.isEmpty
  · simp [Rope.ofString, hs, wfRope, wfOpt]
  · simp [Rope.ofString, hs, wfRope, wfOpt, wfW_createOptimalTree]

theorem Rope.lengthN_eq (r : Rope) : r.lengthN = r.toStr.length := by
  cases r with
  | mk root =>
    cases root with
    | none => rfl
    | some n => simp [Rope.lengthN, Rope.toStr, toStrOpt, getNodeWeight_eq]

/-! ## Correctness of the mutation and query operations -/

theorem Rope.insert_ok {r : Rope} (hwf : wfRope r = true) {i : Int}
    (h0 : 0 ≤ i) (hle : i ≤ (r.lengthN : Int)) (t : Str) :
    ∃ r', r.insert i t = .ok r' ∧
      r'.toStr = r.toStr.take i.toNat ++ t ++ r.toStr.drop i.toNat ∧
      wfRope r' = true := by
  have hguard : ¬(i < 0 ∨ (r.lengthN : Int) < i) := by omega
  cases r with
  | mk root =>
    cases root with
    | none =>
      refine ⟨⟨some (.leaf t)⟩, ?_, ?_, rfl⟩
      · simp [Rope.insert, hguard]
      · simp [Rope.toStr, toStrOpt, toStrN]
    | some root =>
      have hw : wfW root = true := hwf
      obtain ⟨hs1, hs2⟩ := splitNode_toStr hw i.toNat
      obtain ⟨hwf1, hwf2⟩ := wfOpt_splitNode hw i.toNat
      have hstr : Rope.toStr ⟨some root⟩ = toStrN root := rfl
      rcases hsplit : splitNode root i.toNat with ⟨p1, p2⟩
      rw [hsplit] at hs1 hs2 hwf1 hwf2
      have keystr : toStrOpt (concatOpt (concatOpt p1 (some (.leaf t))) p2) =
          (toStrN root).take i.toNat ++ t ++ (toStrN root).drop i.toNat := by
        rw [toStrOpt_concatOpt, toStrOpt_concatOpt, hs1, hs2]
        rfl
      have keywf : wfOpt (concatOpt (concatOpt p1 (some (.leaf t))) p2) = true :=
        wfOpt_concatOpt (wfOpt_concatOpt hwf1 rfl) hwf2
      cases p1 with
      | none =>
        refine ⟨⟨concatOpt (some (.leaf t)) p2⟩, ?_, ?_, ?_⟩
        · simp [Rope.insert, hguard, hsplit]
        · rw [hstr]
          exact keystr
        · exact keywf
      | some l =>
        refine ⟨⟨concatOpt (concatOpt (some l) (some (.leaf t))) p2⟩, ?_, ?_, ?_⟩
        · simp [Rope.insert, hguard, hsplit]
        · rw [hstr]
          exact keystr
        · exact keywf

theorem Rope.delete_ok {r : Rope} (hwf : wfRope r = true) {s e : Int}
    (h0 : 0 ≤ s) (hse : s ≤ e) (hle : e ≤ (r.lengthN : Int)) :
    ∃ r', r.delete s e = .ok r' ∧
      r'.toStr = r.toStr.take s.toNat ++ r.toStr.drop e.toNat ∧
      wfRope r' = true := by
  by_cases heq : s = e
  · subst heq
    exact ⟨r, by simp [Rope.delete], by rw [List.take_append_drop], hwf⟩
  · have hlt : s < e := lt_of_le_of_ne hse heq
    have hguard : ¬(s < 0 ∨ (r.lengthN : Int) < e ∨ e ≤ s) := by omega
    have hlen : r.lengthN = r.toStr.length := Rope.lengthN_eq r
    cases r with
    | mk root =>
      cases root with
      | none =>
        exfalso
        simp only [Rope.lengthN] at hle
        omega
      | some root =>
        have hw : wfW root = true := hwf
        have hstr : Rope.toStr ⟨some root⟩ = toStrN root := rfl
        obtain ⟨hs1, hs2⟩ := splitNode_toStr hw s.toNat
        obtain ⟨hwf1, hwf2⟩ := wfOpt_splitNode hw s.toNat
        rcases hsplit : splitNode root s.toNat with ⟨p1, p2⟩
        rw [hsplit] at hs1 hs2 hwf1 hwf2
        cases p2 with
        | none =>
          exfalso
          simp only [toStrOpt] at hs2
          have : (toStrN root).length ≤ s.toNat := by
            have := congrArg List.length hs2
            simp only [List.length_drop, List.length_nil] at this
            omega
          simp only [Rope.lengthN, getNodeWeight_eq] at hle
          omega
        | some t =>
          have hwt : wfW t = true := hwf2
          have htstr : toStrN t = (toStrN root).drop s.toNat := hs2
          obtain ⟨ht1, ht2⟩ := splitNode_toStr hwt (e - s).toNat
          obtain ⟨htw1, htw2⟩ := wfOpt_splitNode hwt (e - s).toNat
          rcases hsplit2 : splitNode t (e - s).toNat with ⟨q1, q2⟩
          rw [hsplit2] at ht1 ht2 htw1 htw2
          have hq2str : toStrOpt q2 = (toStrN root).drop e.toNat := by
            rw [ht2, htstr, List.drop_drop]
            congr 1
            omega
          have key : toStrOpt (concatOpt p1 q2) =
              (toStrN root).take s.toNat ++ (toStrN root).drop e.toNat := by
            rw [toStrOpt_concatOpt, hs1, hq2str]
          have keywf : wfOpt (concatOpt p1 q2) = true :=
            wfOpt_concatOpt hwf1 htw2
          cases p1 with
          | none =>
            refine ⟨⟨q2⟩, ?_, ?_, htw2⟩
            · simp [Rope.delete, heq, hguard, hsplit, hsplit2]
            · have : concatOpt none q2 = q2 := rfl
              rw [hstr, ← this]
              exact key
          | some l =>
            refine ⟨⟨concatOpt (some l) q2⟩, ?_, ?_, keywf⟩
            · simp [Rope.delete, heq, hguard, hsplit, hsplit2]
            · rw [hstr]
              exact key

theorem Rope.substring_ok {r : Rope} (hwf : wfRope r = true) {s e : Int}
    (h0 : 0 ≤ s) (hse : s ≤ e) (hle : e ≤ (r.lengthN : Int)) :
    ∃ res r', r.substring s e = .ok (res, r') ∧
      res = (r.toStr.drop s.toNat).take (e - s).toNat ∧
      r'.toStr = r.toStr ∧ wfRope r' = true := by
  have hguard : ¬(s < 0 ∨ (r.lengthN : Int) < e ∨ e < s) := by omega
  by_cases heq : s = e
  · subst heq
    refine ⟨[], r, ?_, ?_, rfl, hwf⟩
    · simp only [Rope.substring, if_neg hguard, eq_self_iff_true, if_true]
    · simp
  · have hlt : s < e := lt_of_le_of_ne hse heq
    by_cases hfull : s = 0 ∧ e = (r.lengthN : Int)
    · refine ⟨r.toStr, r, ?_, ?_, rfl, hwf⟩
      · simp only [Rope.substring, if_neg hguard, if_neg heq, if_pos hfull]
      · obtain ⟨h1, h2⟩ := hfull
        subst h1
        have h2' : e.toNat = r.toStr.length := by
          rw [Rope.lengthN_eq] at h2
          omega
        simp only [Int.toNat_zero, List.drop_zero, sub_zero, h2',
          List.take_length]
    · cases r with
      | mk root =>
        cases root with
        | none =>
          exfalso
          simp only [Rope.lengthN] at hle
          omega
        | some root =>
          have hw : wfW root = true := hwf
          have hstr : Rope.toStr ⟨some root⟩ = toStrN root := rfl
          obtain ⟨hs1, hs2⟩ := splitNode_toStr hw s.toNat
          obtain ⟨hwf1, hwf2⟩ := wfOpt_splitNode hw s.toNat
          rcases hsplit : splitNode root s.toNat with ⟨p1, p2⟩
          rw [hsplit] at hs1 hs2 hwf1 hwf2
          cases p2 with
          | none =>
            exfalso
            simp only [toStrOpt] at hs2
            have := congrArg List.length hs2
            simp only [List.length_drop, List.length_nil] at this
            simp only [Rope.lengthN, getNodeWeight_eq] at hle
            omega
          | some t =>
            have hwt : wfW t = true := hwf2
            have htstr : toStrN t = (toStrN root).drop s.toNat := hs2
            obtain ⟨ht1, ht2⟩ := splitNode_toStr hwt (e - s).toNat
            obtain ⟨htw1, htw2⟩ := wfOpt_splitNode hwt (e - s).toNat
            rcases hsplit2 : splitNode t (e - s).toNat with ⟨q1, q2⟩
            rw [hsplit2] at ht1 ht2 htw1 htw2
            refine ⟨toStrOpt q1, ⟨concatOpt (concatOpt p1 q1) q2⟩, ?_, ?_, ?_, ?_⟩
            · simp [Rope.substring, hguard, heq, hfull, hsplit, hsplit2]
            · rw [ht1, htstr, hstr]
            · rw [hstr]
              show toStrOpt (concatOpt (concatOpt p1 q1) q2) = toStrN root
              rw [toStrOpt_concatOpt, toStrOpt_concatOpt, hs1, ht1, ht2, htstr,
                List.append_assoc, List.take_append_drop, List.take_append_drop]
            · exact wfOpt_concatOpt (wfOpt_concatOpt hwf1 htw1) htw2

theorem charAtAux_eq {n : RopeNode} (h : wfW n = true) (i : Nat) :
    charAtAux n i =
      match (toStrN n)[i]? with
      | some c => .ok c
      | none => .error .indexOutOfBounds := by
  induction n generalizing i with
  | leaf v => rfl
  | internal l r w hh ihl ihr =>
    rw [wfW_internal_iff] at h
    obtain ⟨hw, hl, hr⟩ := h
    have hwlen : w = (toStrN l).length := by rw [hw, getNodeWeight_eq]
    simp only [charAtAux, toStrN, List.getElem?_append]
    split
    · rename_i hi
      rw [ihl hl, if_pos (by omega)]
    · rename_i hi
      rw [ihr hr, if_neg (by omega), hwlen]

theorem Rope.charAt_ok {r : Rope} (hwf : wfRope r = true) {i : Int}
    (h0 : 0 ≤ i) (hlt : i < (r.lengthN : Int)) :
    ∃ c, r.charAt i = .ok c ∧ r.toStr[i.toNat]? = some c := by
  cases r with
  | mk root =>
    cases root with
    | none =>
      exfalso
      simp only [Rope.lengthN] at hlt
      omega
    | some root =>
      have hw : wfW root = true := hwf
      have hguard : ¬(i < 0 ∨ (Rope.lengthN ⟨some root⟩ : Int) ≤ i) := by omega
      have hilen : i.toNat < (toStrN root).length := by
        simp only [Rope.lengthN, getNodeWeight_eq] at hlt
        omega
      cases hc : (toStrN root)[i.toNat]? with
      | none =>
        exfalso
        rw [List.getElem?_eq_none_iff] at hc
        omega
      | some c =>
        refine ⟨c, ?_, hc⟩
        simp only [Rope.charAt, hguard, if_false]
        rw [charAtAux_eq hw, hc]

/-! ## Edit sequences against the plain-string reference model -/

/-- An edit operation from the public mutating API. -/
inductive EditOp where
  | ins (i : Int) (t : Str)
  | del (s e : Int)
deriving DecidableEq, Repr

/-- The reference model: the equivalent splice on a plain string. -/
def refApply : EditOp → Str → Str
  | .ins i t, s => s.take i.toNat ++ t ++ s.drop i.toNat
  | .del a b, s => s.take a.toNat ++ s.drop b.toNat

/-- Validity of one operation's arguments against the current length. -/
def EditOp.validB : EditOp → Nat → Bool
  | .ins i _, n => decide (0 ≤ i) && decide (i ≤ (n : Int))
  | .del a b, n => decide (0 ≤ a) && decide (a ≤ b) && decide (b ≤ (n : Int))

/-- Validity of a whole edit sequence, tracked along the reference model. -/
def validSeqB : List EditOp → Str → Bool
  | [], _ => true
  | op :: ops, s => op.validB s.length && validSeqB ops (refApply op s)

/-- Run one edit operation on the rope. -/
def applyOp : EditOp → Rope → Except Err Rope
  | .ins i t, r => r.insert i t
  | .del a b, r => r.delete a b

/-- Run an edit sequence on the rope, stopping at the first error. -/
def runOps : List EditOp → Rope → Except Err Rope
  | [], r => .ok r
  | op :: ops, r => applyOp op r >>= runOps ops

/-- Run an edit sequence on the reference string. -/
def refRun : List EditOp → Str → Str
  | [], s => s
  | op :: ops, s => refRun ops (refApply op s)

theorem applyOp_ok {r : Rope} (hwf : wfRope r = true) {op : EditOp}
    (hv : op.validB r.toStr.length = true) :
    ∃ r', applyOp op r = .ok r' ∧ r'.toStr = refApply op r.toStr ∧
      wfRope r' = true := by
  have hlen : (r.lengthN : Int) = (r.toStr.length : Int) := by
    rw [Rope.lengthN_eq]
  match op with
  | .ins i t =>
    simp only [EditOp.validB, Bool.and_eq_true, decide_eq_true_eq] at hv
    obtain ⟨r', h1, h2, h3⟩ :=
      Rope.insert_ok hwf hv.1 (by omega) t
    exact ⟨r', h1, h2, h3⟩
  | .del a b =>
    simp only [EditOp.validB, Bool.and_eq_true, decide_eq_true_eq] at hv
    obtain ⟨r', h1, h2, h3⟩ :=
      Rope.delete_ok hwf hv.1.1 hv.1.2 (by omega)
    exact ⟨r', h1, h2, h3⟩

theorem runOps_ok {ops : List EditOp} {r : Rope} (hwf : wfRope r = true)
    (hv : validSeqB ops r.toStr = true) :
    ∃ r', runOps ops r = .ok r' ∧ r'.toStr = refRun ops r.toStr ∧
      wfRope r' = true := by
  induction ops generalizing r with
  | nil => exact ⟨r, rfl, rfl, hwf⟩
  | cons op ops ih =>
    simp only [validSeqB, Bool.and_eq_true] at hv
    obtain ⟨r1, h1, h2, h3⟩ := applyOp_ok hwf hv.1
    obtain ⟨r', h1', h2', h3'⟩ := ih h3 (h2 ▸ hv.2)
    refine ⟨r', ?_, ?_, h3'⟩
    · show applyOp op r >>= runOps ops = _
      rw [h1]
      exact h1'
    · rw [h2', h2]
      rfl

/-! ## Heights and balance of the tree builder -/

theorem realHeight_mkInternal (l r : RopeNode) :
    realHeight (mkInternal l r) = max (realHeight l) (realHeight r) + 1 := rfl

theorem one_le_realHeight (n : RopeNode) : 1 ≤ realHeight n := by
  cases n with
  | leaf v => exact le_rfl
  | internal l r w h => simp [realHeight]

/-- The height of the tree `cotFuel f s` depends only on the length of `s`;
this is that height as a function of fuel and length. -/
def hFuel : Nat → Nat → Nat
  | 0, _ => 1
  | f + 1, n =>
    if n ≤ LEAF_LENGTH_THRESHOLD then 1
    else max (hFuel f (n / 2)) (hFuel f (n - n / 2)) + 1

/-- Height of the optimal tree built from a string of length `n`. -/
def cotH (n : Nat) : Nat := hFuel n n

theorem hFuel_of_le {f n : Nat} (h : n ≤ LEAF_LENGTH_THRESHOLD) :
    hFuel f n = 1 := by
  cases f with
  | zero => rfl
  | succ f => simp [hFuel, h]

theorem hFuel_eq_hFuel : ∀ {f g n : Nat}, n ≤ f → n ≤ g → hFuel f n = hFuel g n := by
  intro f
  induction f with
  | zero =>
    intro g n hf hg
    have : n = 0 := by omega
    subst this
    rw [hFuel_of_le (by simp [LEAF_LENGTH_THRESHOLD]),
      hFuel_of_le (by simp [LEAF_LENGTH_THRESHOLD])]
  | succ f ih =>
    intro g n hf hg
    by_cases hn : n ≤ LEAF_LENGTH_THRESHOLD
    · rw [hFuel_of_le hn, hFuel_of_le hn]
    · have hn' : 1024 < n := by simpa [LEAF_LENGTH_THRESHOLD] using hn
      cases g with
      | zero => omega
      | succ g =>
        simp only [hFuel, if_neg hn]
        have e1 : hFuel f (n / 2) = hFuel g (n / 2) :=
          ih (by omega) (by omega)
        have e2 : hFuel f (n - n / 2) = hFuel g (n - n / 2) :=
          ih (by omega) (by omega)
        rw [e1, e2]

theorem hFuel_eq_cotH {f n : Nat} (h : n ≤ f) : hFuel f n = cotH n :=
  hFuel_eq_hFuel h le_rfl

theorem cotH_of_le {n : Nat} (h : n ≤ LEAF_LENGTH_THRESHOLD) : cotH n = 1 :=
  hFuel_of_le h

theorem cotH_of_gt {n : Nat} (h : 1024 < n) :
    cotH n = max (cotH (n / 2)) (cotH (n - n / 2)) + 1 := by
  cases n with
  | zero => omega
  | succ m =>
    have hns : ¬(m + 1 ≤ LEAF_LENGTH_THRESHOLD) := by
      simp only [LEAF_LENGTH_THRESHOLD]
      omega
    show hFuel (m + 1) (m + 1) = _
    simp only [hFuel, if_neg hns]
    rw [hFuel_eq_cotH (by omega), hFuel_eq_cotH (by omega)]

theorem one_le_cotH (n : Nat) : 1 ≤ cotH n := by
  by_cases h : n ≤ LEAF_LENGTH_THRESHOLD
  · rw [cotH_of_le h]
  · rw [cotH_of_gt (by simpa [LEAF_LENGTH_THRESHOLD] using h)]
    omega

theorem realHeight_cotFuel {f : Nat} {s : Str} (h : s.length ≤ f) :
    realHeight (cotFuel f s) = cotH s.length := by
  induction f generalizing s with
  | zero =>
    have : s.length = 0 := by omega
    rw [cotFuel, realHeight, this, cotH_of_le (by simp [LEAF_LENGTH_THRESHOLD])]
  | succ f ih =>
    simp only [cotFuel]
    split
    · rename_i hle
      rw [realHeight, cotH_of_le hle]
    · rename_i hgt
      have hn : 1024 < s.length := by simpa [LEAF_LENGTH_THRESHOLD] using hgt
      rw [realHeight_mkInternal,
        ih (by simp only [List.length_take]; omega),
        ih (by simp only [List.length_drop]; omega),
        cotH_of_gt hn]
      simp only [List.length_take, List.length_drop]
      have e1 : min (s.length / 2) s.length = s.length / 2 := by omega
      rw [e1]

theorem cotH_mono : ∀ m n : Nat, n ≤ m → cotH n ≤ cotH m := by
  intro m
  induction m using Nat.strong_induction_on with
  | _ m ih =>
    intro n hnm
    by_cases hm : m ≤ LEAF_LENGTH_THRESHOLD
    · rw [cotH_of_le hm, cotH_of_le (le_trans hnm hm)]
    · have hm' : 1024 < m := by simpa [LEAF_LENGTH_THRESHOLD] using hm
      rw [cotH_of_gt hm']
      by_cases hn : n ≤ LEAF_LENGTH_THRESHOLD
      · rw [cotH_of_le hn]
        omega
      · have hn' : 1024 < n := by simpa [LEAF_LENGTH_THRESHOLD] using hn
        rw [cotH_of_gt hn']
        have h1 : cotH (n / 2) ≤ cotH (m / 2) :=
          ih (m / 2) (by omega) (n / 2) (by omega)
        have h2 : cotH (n - n / 2) ≤ cotH (m - m / 2) :=
          ih (m - m / 2) (by omega) (n - n / 2) (by omega)
        have := max_le_max h1 h2
        omega

theorem cotH_succ_le : ∀ n : Nat, cotH (n + 1) ≤ cotH n + 1 := by
  intro n
  induction n using Nat.strong_induction_on with
  | _ n ih =>
    by_cases h1 : n + 1 ≤ LEAF_LENGTH_THRESHOLD
    · rw [cotH_of_le h1]
      omega
    · by_cases h2 : n ≤ LEAF_LENGTH_THRESHOLD
      · have hn : n = 1024 := by
          simp only [LEAF_LENGTH_THRESHOLD] at h1 h2
          omega
        subst hn
        rw [cotH_of_gt (by omega)]
        have e1 : (1024 + 1) / 2 = 512 := by omega
        have e2 : 1024 + 1 - (1024 + 1) / 2 = 513 := by omega
        rw [e1, e2, cotH_of_le (by simp only [LEAF_LENGTH_THRESHOLD]; omega),
          cotH_of_le (by simp only [LEAF_LENGTH_THRESHOLD]; omega),
          cotH_of_le (by simp only [LEAF_LENGTH_THRESHOLD]; omega)]
        norm_num
      · have hn : 1024 < n := by simpa [LEAF_LENGTH_THRESHOLD] using h2
        rw [cotH_of_gt (by omega), cotH_of_gt hn]
        rcases Nat.even_or_odd n with he | ho
        · obtain ⟨j, hj⟩ := he
          have e1 : (n + 1) / 2 = n / 2 := by omega
          rw [e1]
          have e2 : n + 1 - n / 2 = (n - n / 2) + 1 := by omega
          have e3 : n - n / 2 = n / 2 := by omega
          rw [e2, e3]
          have hstep : cotH (n / 2 + 1) ≤ cotH (n / 2) + 1 :=
            ih (n / 2) (by omega)
          have h4 : max (cotH (n / 2)) (cotH (n / 2 + 1)) ≤
              max (cotH (n / 2)) (cotH (n / 2) + 1) :=
            max_le_max (le_refl _) hstep
          have h5 : max (cotH (n / 2)) (cotH (n / 2) + 1) = cotH (n / 2) + 1 := by
            omega
          have h6 : max (cotH (n / 2)) (cotH (n / 2)) = cotH (n / 2) :=
            max_self _
          omega
        · obtain ⟨j, hj⟩ := ho
          have e1 : (n + 1) / 2 = n - n / 2 := by omega
          rw [e1]
          have e2 : n + 1 - (n - n / 2) = n - n / 2 := by omega
          rw [e2]
          have : cotH (n - n / 2) ≤ max (cotH (n / 2)) (cotH (n - n / 2)) :=
            le_max_right _ _
          have h6 : max (cotH (n - n / 2)) (cotH (n - n / 2)) = cotH (n - n / 2) :=
            max_self _
          omega

theorem avlOk_mkInternal {l r : RopeNode} (hl : avlOk l = true)
    (hr : avlOk r = true)
    (hbf : ((realHeight l : Int) - (realHeight r : Int)).natAbs ≤ 1) :
    avlOk (mkInternal l r) = true := by
  simp [mkInternal, avlOk, hl, hr, hbf]

theorem avlOk_cotFuel {f : Nat} {s : Str} (h : s.length ≤ f) :
    avlOk (cotFuel f s) = true := by
  induction f generalizing s with
  | zero => rfl
  | succ f ih =>
    simp only [cotFuel]
    split
    · rfl
    · rename_i hgt
      have hn : 1024 < s.length := by simpa [LEAF_LENGTH_THRESHOLD] using hgt
      refine avlOk_mkInternal (ih (by simp only [List.length_take]; omega))
        (ih (by simp only [List.length_drop]; omega)) ?_
      rw [realHeight_cotFuel (by simp only [List.length_take]; omega),
        realHeight_cotFuel (by simp only [List.length_drop]; omega)]
      simp only [List.length_take, List.length_drop]
      have e1 : min (s.length / 2) s.length = s.length / 2 := by omega
      rw [e1]
      rcases Nat.even_or_odd s.length with he | ho
      · obtain ⟨j, hj⟩ := he
        have e2 : s.length - s.length / 2 = s.length / 2 := by omega
        rw [e2]
        omega
      · obtain ⟨j, hj⟩ := ho
        have e2 : s.length - s.length / 2 = s.length / 2 + 1 := by omega
        rw [e2]
        have hle : cotH (s.length / 2) ≤ cotH (s.length / 2 + 1) :=
          cotH_mono _ _ (by omega)
        have hstep : cotH (s.length / 2 + 1) ≤ cotH (s.length / 2) + 1 :=
          cotH_succ_le _
        omega

theorem avlOk_createOptimalTree (s : Str) :
    avlOk (createOptimalTree s) = true :=
  avlOk_cotFuel le_rfl

/-! ## `isBalanced` agrees with the real balance predicate -/

theorem checkBalance_eq (n : RopeNode) :
    checkBalanceN n =
      if avlOk n = true then (realHeight n : Int) else -1 := by
  induction n with
  | leaf v => simp [checkBalanceN, avlOk, realHeight]
  | internal l r w h ihl ihr =>
    have hl1 := one_le_realHeight l
    have hr1 := one_le_realHeight r
    simp only [checkBalanceN, ihl, ihr]
    by_cases hal : avlOk l = true
    · by_cases har : avlOk r = true
      · simp only [hal, har, eq_self_iff_true, if_true]
        rw [if_neg (by omega), if_neg (by omega)]
        by_cases hbf : (1 : Nat) < ((realHeight l : Int) - (realHeight r : Int)).natAbs
        · rw [if_pos hbf]
          have hok : avlOk (.internal l r w h) = false := by
            simp only [avlOk, hal, har, Bool.true_and, decide_eq_false_iff_not]
            omega
          rw [hok]
          simp
        · rw [if_neg hbf]
          have hok : avlOk (.internal l r w h) = true := by
            simp only [avlOk, hal, har, Bool.true_and, decide_eq_true_eq]
            omega
          rw [hok, if_pos rfl]
          show _ = ((max (realHeight l) (realHeight r) + 1 : Nat) : Int)
          push_cast
          rfl
      · have har' : avlOk r = false := by simpa using har
        have hok : avlOk (.internal l r w h) = false := by
          simp [avlOk, har']
        simp [hal, har', hok]
    · have hal' : avlOk l = false := by simpa using hal
      have hok : avlOk (.internal l r w h) = false := by
        simp [avlOk, hal']
      simp [hal', hok]

theorem isBalanced_iff (r : Rope) : r.isBalanced = avlRope r := by
  cases r with
  | mk root =>
    cases root with
    | none =>
      show (checkBalance none != -1) = true
      rfl
    | some n =>
      have h1 := one_le_realHeight n
      simp only [Rope.isBalanced, avlRope, checkBalance, checkBalance_eq]
      by_cases h : avlOk n = true
      · rw [if_pos h, h]
        simp only [bne_iff_ne, ne_eq]
        omega
      · have h' : avlOk n = false := by simpa using h
        rw [if_neg h, h']
        decide

/-! ## Preservation of the weight invariant by the public operations -/

theorem wfRope_insert {r r' : Rope} {i : Int} {t : Str}
    (hwf : wfRope r = true) (h : r.insert i t = .ok r') : wfRope r' = true := by
  by_cases hg : i < 0 ∨ (r.lengthN : Int) < i
  · simp [Rope.insert, hg] at h
  · cases r with
    | mk root =>
      cases root with
      | none =>
        simp only [Rope.insert, if_neg hg, Except.ok.injEq] at h
        subst h
        rfl
      | some root =>
        have hw : wfW root = true := hwf
        obtain ⟨hwf1, hwf2⟩ := wfOpt_splitNode hw i.toNat
        rcases hsplit : splitNode root i.toNat with ⟨p1, p2⟩
        rw [hsplit] at hwf1 hwf2
        simp only [Rope.insert, if_neg hg, hsplit] at h
        cases p1 with
        | none =>
          simp only [Except.ok.injEq] at h
          subst h
          exact wfOpt_concatOpt (a := some (.leaf t)) rfl hwf2
        | some l =>
          simp only [Except.ok.injEq] at h
          subst h
          exact wfOpt_concatOpt (wfOpt_concatOpt hwf1 rfl) hwf2

theorem wfRope_delete {r r' : Rope} {s e : Int}
    (hwf : wfRope r = true) (h : r.delete s e = .ok r') : wfRope r' = true := by
  by_cases heq : s = e
  · simp only [Rope.delete, if_pos heq, Except.ok.injEq] at h
    subst h
    exact hwf
  · by_cases hg : s < 0 ∨ (r.lengthN : Int) < e ∨ e ≤ s
    · simp [Rope.delete, heq, hg] at h
    · cases r with
      | mk root =>
        cases root with
        | none => simp [Rope.delete, heq, hg] at h
        | some root =>
          have hw : wfW root = true := hwf
          obtain ⟨hwf1, hwf2⟩ := wfOpt_splitNode hw s.toNat
          rcases hsplit : splitNode root s.toNat with ⟨p1, p2⟩
          rw [hsplit] at hwf1 hwf2
          simp only [Rope.delete, if_neg heq, if_neg hg, hsplit] at h
          cases p2 with
          | none => simp at h
          | some t =>
            have hwt : wfW t = true := hwf2
            obtain ⟨htw1, htw2⟩ := wfOpt_splitNode hwt (e - s).toNat
            rcases hsplit2 : splitNode t (e - s).toNat with ⟨q1, q2⟩
            rw [hsplit2] at htw1 htw2
            simp only [hsplit2] at h
            cases p1 with
            | none =>
              simp only [Except.ok.injEq] at h
              subst h
              exact htw2
            | some l =>
              simp only [Except.ok.injEq] at h
              subst h
              exact wfOpt_concatOpt hwf1 htw2

theorem wfRope_substring {r r' : Rope} {s e : Int} {res : Str}
    (hwf : wfRope r = true) (h : r.substring s e = .ok (res, r')) :
    wfRope r' = true := by
  by_cases hg : s < 0 ∨ (r.lengthN : Int) < e ∨ e < s
  · simp [Rope.substring, hg] at h
  · by_cases heq : s = e
    · simp only [Rope.substring, if_neg hg, if_pos heq, Except.ok.injEq,
        Prod.mk.injEq] at h
      rw [← h.2]
      exact hwf
    · by_cases hfull : s = 0 ∧ e = (r.lengthN : Int)
      · simp only [Rope.substring, if_neg hg, if_neg heq, if_pos hfull,
          Except.ok.injEq, Prod.mk.injEq] at h
        rw [← h.2]
        exact hwf
      · cases r with
        | mk root =>
          cases root with
          | none => simp [Rope.substring, hg, heq, hfull] at h
          | some root =>
            have hw : wfW root = true := hwf
            obtain ⟨hwf1, hwf2⟩ := wfOpt_splitNode hw s.toNat
            rcases hsplit : splitNode root s.toNat with ⟨p1, p2⟩
            rw [hsplit] at hwf1 hwf2
            simp only [Rope.substring, if_neg hg, if_neg heq, if_neg hfull,
              hsplit] at h
            cases p2 with
            | none => simp at h
            | some t =>
              have hwt : wfW t = true := hwf2
              obtain ⟨htw1, htw2⟩ := wfOpt_splitNode hwt (e - s).toNat
              rcases hsplit2 : splitNode t (e - s).toNat with ⟨q1, q2⟩
              rw [hsplit2] at htw1 htw2
              simp only [hsplit2, Except.ok.injEq, Prod.mk.injEq] at h
              rw [← h.2]
              exact wfOpt_concatOpt (wfOpt_concatOpt hwf1 htw1) htw2

theorem wfRope_rebalance (r : Rope) : wfRope r.rebalance = true :=
  wfW_createOptimalTree _

theorem avlRope_ofString (s : Str) : avlRope (Rope.ofString s) = true := by
  by_cases hs : s.isEmpty
  · simp [Rope.ofString, hs, avlRope]
  · simp [Rope.ofString, hs, avlRope, avlOk_createOptimalTree]

theorem insert_ok_of_valid {r : Rope} {i : Int}
    (h : ¬(i < 0 ∨ (r.lengthN : Int) < i)) (t : Str) :
    ∃ r', r.insert i t = .ok r' := by
  cases r with
  | mk root =>
    cases root with
    | none =>
      refine ⟨⟨some (.leaf t)⟩, ?_⟩
      simp [Rope.insert, h]
    | some root =>
      rcases hsplit : splitNode root i.toNat with ⟨p1, p2⟩
      cases p1 with
      | none =>
        refine ⟨⟨concatOpt (some (.leaf t)) p2⟩, ?_⟩
        simp [Rope.insert, h, hsplit]
      | some l =>
        refine ⟨⟨concatOpt (concatOpt (some l) (some (.leaf t))) p2⟩, ?_⟩
        simp [Rope.insert, h, hsplit]

/-! ## The claims -/

/-- C1: for every initial string and every sequence of `insert`/`delete`
operations with valid arguments, running the sequence on a rope built from
the initial string succeeds, and `toString()` equals the plain reference
string obtained by the equivalent splice operations. -/
theorem claim1_roundTrip (s0 : Str) (ops : List EditOp)
    (hv : validSeqB ops s0 = true) :
    ∃ r', runOps ops (Rope.ofString s0) = .ok r' ∧
      r'.toStr = refRun ops s0 := by
  obtain ⟨r', h1, h2, _⟩ := runOps_ok (wfRope_ofString s0)
    (by rw [Rope.toStr_ofString]; exact hv)
  exact ⟨r', h1, by rw [h2, Rope.toStr_ofString]⟩

/-- Witness for C1: the hand-verified scenario of the specification,
`Rope("Hello, world!")`, `insert(5, " beautiful")`, `delete(5, 11)`. -/
theorem claim1_witness :
    validSeqB [EditOp.ins 5 (" beautiful".toList), EditOp.del 5 11]
        ("Hello, world!".toList) = true ∧
      ∃ r', runOps [EditOp.ins 5 (" beautiful".toList), EditOp.del 5 11]
          (Rope.ofString ("Hello, world!".toList)) = .ok r' ∧
        r'.toStr = refRun [EditOp.ins 5 (" beautiful".toList), EditOp.del 5 11]
          ("Hello, world!".toList) :=
  ⟨by decide, claim1_roundTrip _ _ (by decide)⟩

/-- C2, amended: the balance-factor invariant holds after construction and
after `rebalance()`, but the mutating operations do not in general restore it
before returning (see the counterexample below). -/
theorem claim2_amended (s : Str) (r : Rope) :
    avlRope (Rope.ofString s) = true ∧ avlRope r.rebalance = true :=
  ⟨avlRope_ofString s, avlOk_createOptimalTree _⟩

set_option maxRecDepth 100000 in
/-- C2 counterexample: starting from 1026 characters, four valid `insert`
calls leave the tree with an internal node whose children have real heights
3 and 1 (balance factor 2), so the invariant fails immediately after a
mutating operation completes. -/
theorem claim2_counterexample :
    (((((Rope.ofString (List.replicate 1026 'a')).insert 0 ['x']).bind
            (fun r => r.insert 0 [])).bind
          (fun r => r.insert 1 [])).bind
        (fun r => r.insert 1026 [])).map avlRope = .ok false := by
  rfl

/-- C3: for valid `(s, e)`, `substring(s, e)` returns exactly the slice
`toString().slice(s, e)` and leaves the value of `toString()` unchanged,
even though the call may rebuild internal nodes. -/
theorem claim3_substring {r : Rope} (hwf : wfRope r = true) {s e : Int}
    (h0 : 0 ≤ s) (hse : s ≤ e) (hle : e ≤ (r.lengthN : Int)) :
    ∃ res r', r.substring s e = .ok (res, r') ∧
      res = (r.toStr.drop s.toNat).take (e - s).toNat ∧
      r'.toStr = r.toStr := by
  obtain ⟨res, r', h1, h2, h3, _⟩ := Rope.substring_ok hwf h0 hse hle
  exact ⟨res, r', h1, h2, h3⟩

/-- Witness for C3: `substring(5, 11)` on `Rope("Hello, world!")`. -/
theorem claim3_witness :
    ∃ res r',
      (Rope.ofString ("Hello, world!".toList)).substring 5 11 = .ok (res, r') ∧
      res = (((Rope.ofString ("Hello, world!".toList)).toStr.drop
          (5 : Int).toNat).take ((11 : Int) - 5).toNat) ∧
      r'.toStr = (Rope.ofString ("Hello, world!".toList)).toStr :=
  claim3_substring (by decide) (by decide) (by decide) (by decide)

/-- C4: `delete(k, k)` returns without error and leaves the rope state
completely unchanged, for every integer `k`, in range or not. -/
theorem claim4_deleteNoop (r : Rope) (k : Int) : r.delete k k = .ok r := by
  simp [Rope.delete]

/-- C5: `insert` fails with IndexOutOfBounds exactly when the index is out of
range, and `delete` with `start ≠ end` fails with InvalidRange exactly when
the range is malformed; in all other cases the call succeeds.  In this pure
embedding a failing call returns only the error, so the rope state is
untouched by construction, mirroring the source's validate-before-mutate
order. -/
theorem claim5_validation {r : Rope} (hwf : wfRope r = true) :
    (∀ i : Int, ∀ t : Str,
      (r.insert i t = .error .indexOutOfBounds ↔
        i < 0 ∨ (r.lengthN : Int) < i) ∧
      (0 ≤ i → i ≤ (r.lengthN : Int) → ∃ r', r.insert i t = .ok r')) ∧
    (∀ s e : Int, s ≠ e →
      (r.delete s e = .error .invalidRange ↔
        s < 0 ∨ (r.lengthN : Int) < e ∨ e < s) ∧
      (0 ≤ s → s ≤ e → e ≤ (r.lengthN : Int) →
        ∃ r', r.delete s e = .ok r')) := by
  constructor
  · intro i t
    constructor
    · constructor
      · intro herr
        by_contra hc
        obtain ⟨r', hok⟩ := @insert_ok_of_valid r i (by omega) t
        rw [hok] at herr
        cases herr
      · intro hc
        simp [Rope.insert, hc]
    · intro h0 hle
      exact insert_ok_of_valid (by omega) t
  · intro s e hne
    constructor
    · constructor
      · intro herr
        by_contra hc
        obtain ⟨r', hok, _, _⟩ :=
          @Rope.delete_ok r hwf s e (by omega) (by omega) (by omega)
        rw [hok] at herr
        cases herr
      · intro hc
        have : ¬ s = e := hne
        simp only [Rope.delete, if_neg this]
        rw [if_pos (by omega)]
    · intro h0 hse hle
      obtain ⟨r', hok, _, _⟩ := Rope.delete_ok hwf h0 hse hle
      exact ⟨r', hok⟩

/-- Witness for C5: out-of-range insert on a two-character rope. -/
theorem claim5_witness :
    ((Rope.ofString ['a', 'b']).insert (-1) ['c'] = .error .indexOutOfBounds ↔
      (-1 : Int) < 0 ∨ (((Rope.ofString ['a', 'b']).lengthN : Int) < -1)) ∧
    (0 ≤ (-1 : Int) → (-1 : Int) ≤ ((Rope.ofString ['a', 'b']).lengthN : Int) →
      ∃ r', (Rope.ofString ['a', 'b']).insert (-1) ['c'] = .ok r') :=
  (claim5_validation (by decide)).1 (-1) ['c']

/-- C6: for every valid index, `charAt(i)` returns exactly the character
`toString()[i]`. -/
theorem claim6_charAt {r : Rope} (hwf : wfRope r = true) {i : Int}
    (h0 : 0 ≤ i) (hlt : i < (r.lengthN : Int)) :
    ∃ c, r.charAt i = .ok c ∧ r.toStr[i.toNat]? = some c :=
  Rope.charAt_ok hwf h0 hlt

/-- Witness for C6: `charAt(5)` on `Rope("Hello, world!")`. -/
theorem claim6_witness :
    ∃ c, (Rope.ofString ("Hello, world!".toList)).charAt 5 = .ok c ∧
      (Rope.ofString ("Hello, world!".toList)).toStr[(5 : Int).toNat]? =
        some c :=
  claim6_charAt (by decide) (by decide) (by decide)

/-- C7: every public operation preserves the invariant that each internal
node's cached `weight` equals the total length of the leaf values in its
left subtree (construction establishes it; insert, delete, substring and
rebalance preserve it; the remaining public operations do not change the
tree). -/
theorem claim7_weights :
    (∀ s : Str, wfRope (Rope.ofString s) = true) ∧
    (∀ r r' : Rope, ∀ i : Int, ∀ t : Str, wfRope r = true →
      r.insert i t = .ok r' → wfRope r' = true) ∧
    (∀ r r' : Rope, ∀ s e : Int, wfRope r = true →
      r.delete s e = .ok r' → wfRope r' = true) ∧
    (∀ r r' : Rope, ∀ s e : Int, ∀ res : Str, wfRope r = true →
      r.substring s e = .ok (res, r') → wfRope r' = true) ∧
    (∀ r : Rope, wfRope r.rebalance = true) :=
  ⟨wfRope_ofString,
    fun _ _ _ _ hwf h => wfRope_insert hwf h,
    fun _ _ _ _ hwf h => wfRope_delete hwf h,
    fun _ _ _ _ _ hwf h => wfRope_substring hwf h,
    wfRope_rebalance⟩

/-- Witness for C7: inserting into a small rope preserves the weight
invariant. -/
theorem claim7_witness :
    wfRope ((Rope.ofString ['a', 'b']).insert 1 ['c'] |>.toOption.getD
      (Rope.ofString ['a', 'b'])) = true := by
  refine claim7_weights.2.1 (Rope.ofString ['a', 'b']) _ 1 ['c'] (by decide) ?_
  rfl

/-- C8: after `rebalance()`, `isBalanced()` returns true and `toString()` is
unchanged, for every rope. -/
theorem claim8_rebalance (r : Rope) :
    r.rebalance.isBalanced = true ∧ r.rebalance.toStr = r.toStr := by
  constructor
  · rw [isBalanced_iff]
    exact avlOk_createOptimalTree _
  · exact toStrN_createOptimalTree _

/-- C9: inserting the empty string at any valid index (including on the
empty rope) succeeds and leaves both `toString()` and `length()`
unchanged. -/
theorem claim9_insertEmpty {r : Rope} (hwf : wfRope r = true) {i : Int}
    (h0 : 0 ≤ i) (hle : i ≤ (r.lengthN : Int)) :
    ∃ r', r.insert i [] = .ok r' ∧ r'.toStr = r.toStr ∧
      r'.lengthN = r.lengthN := by
  obtain ⟨r', h1, h2, _⟩ := Rope.insert_ok hwf h0 hle []
  have hstr : r'.toStr = r.toStr := by
    rw [h2, List.append_nil, List.take_append_drop]
  refine ⟨r', h1, hstr, ?_⟩
  rw [Rope.lengthN_eq, Rope.lengthN_eq, hstr]

/-- Witness for C9: inserting the empty string into the empty rope. -/
theorem claim9_witness :
    ∃ r', (Rope.ofString []).insert 0 [] = .ok r' ∧
      r'.toStr = (Rope.ofString []).toStr ∧
      r'.lengthN = (Rope.ofString []).lengthN :=
  claim9_insertEmpty (by decide) (by decide) (by decide)

/-- C10: for every rope and every integer index, `charAt` either returns a
single character or an error; the final leaf access is guarded, so no other
outcome is possible. -/
theorem claim10_charAtTotal (r : Rope) (i : Int) :
    (∃ c, r.charAt i = .ok c) ∨ (∃ err, r.charAt i = .error err) := by
  cases h : r.charAt i with
  | ok c => exact .inl ⟨c, rfl⟩
  | error err => exact .inr ⟨err, rfl⟩

end RopeModel
